import Mathlib

/-! Verification development for the DataConverter repository (`src/app.py`).

Shallow embedding conventions:
* Instants are natural numbers of seconds on a proleptic Gregorian time line
  (`mkTimestamp`); a calendar day is `86400` seconds and a 10-minute slot is
  `600` seconds, so the pandas operations `floor('10min')`, `floor('D')`,
  `ceil('D')` and `date_range(freq='10min')` become plain arithmetic.
* Power readings are rationals; a `NaN` cell of a pandas frame is `none`.
* Library collaborators (`pandas.to_datetime`, `to_numeric`, `groupby`,
  `reindex`, ...) are embedded by functions reproducing the semantics the
  source relies on at its call sites.
-/

namespace DataConverter

/-- Leap-year test of the Gregorian calendar. -/
def isLeapYear (y : Nat) : Bool := y % 4 == 0 && (y % 100 != 0 || y % 400 == 0)

/-- Number of days of month `m` in year `y`. -/
def daysInMonth (y m : Nat) : Nat :=
  if m = 2 then (if isLeapYear y then 29 else 28)
  else if m = 4 ∨ m = 6 ∨ m = 9 ∨ m = 11 then 30 else 31

/-- Number of leap years among years `1..y`. -/
def leapCount (y : Nat) : Nat := y / 4 - y / 100 + y / 400

/-- Days of year `y` that lie before month `m`. -/
def daysBeforeMonth (y m : Nat) : Nat :=
  ((List.range (m - 1)).map fun i => daysInMonth y (i + 1)).sum

/-- Day index of the calendar date `y-m-d`; day `0` is `0001-01-01`. -/
def dayNumber (y m d : Nat) : Nat :=
  365 * (y - 1) + leapCount (y - 1) + daysBeforeMonth y m + (d - 1)

/-- Seconds-since-origin of a calendar date plus wall-clock time. -/
def mkTimestamp (y mo d h mi s : Nat) : Nat :=
  dayNumber y mo d * 86400 + h * 3600 + mi * 60 + s

/-- Date text with three slash-separated fields, as in `03/04/2024` (`a/b/y`). -/
structure DateText where
  a : Nat
  b : Nat
  y : Nat
deriving DecidableEq

/-- Time-of-day text `h:mi:s`. -/
structure TimeText where
  h : Nat
  mi : Nat
  s : Nat
deriving DecidableEq

/-- Raw input row handed to `process_sheet`: the `Date` and `Time` cells, and
the power cell after numeric coercion (the comma-to-period replacement and
`pd.to_numeric(..., errors="coerce")` of lines 34-36, whose result is `none`
exactly on non-numeric text). -/
structure Row where
  date : DateText
  time : TimeText
  val : Option ℚ
deriving DecidableEq

/-- Day/month choice pandas makes for the two leading fields of a slashed
date: with `dayfirst` the first field is the day unless the second field
cannot be a month; the pair returned is `(day, month)`. -/
def resolveDayMonth (dayfirst : Bool) (a b : Nat) : Nat × Nat :=
  if dayfirst then (if b ≤ 12 then (a, b) else (b, a))
  else (if a ≤ 12 then (b, a) else (a, b))

/-- Semantics of `pd.to_datetime(date + " " + time, errors="coerce",
dayfirst=...)` at the call site of line 30: resolve the day/month fields,
validate the date and time, and return the instant (`none` is `NaT`). -/
def to_datetime (dayfirst : Bool) (d : DateText) (t : TimeText) : Option Nat :=
  let dm := resolveDayMonth dayfirst d.a d.b
  if 1 ≤ dm.2 ∧ dm.2 ≤ 12 ∧ 1 ≤ dm.1 ∧ dm.1 ≤ daysInMonth d.y dm.2 ∧ 1 ≤ d.y
      ∧ t.h < 24 ∧ t.mi < 60 ∧ t.s < 60
  then some (mkTimestamp d.y dm.2 dm.1 t.h t.mi t.s) else none

/-- Cleaned sample: a parsed instant and a numeric reading (one row of the
frame after the `dropna` of line 39). -/
structure Sample where
  instant : Nat
  value : ℚ
deriving DecidableEq

/-- Lines 29-39: build the `Timestamp` column with `dayfirst=True`, coerce
the power column, and drop every row where either parse failed. -/
def cleanRow (r : Row) : Option Sample :=
  match to_datetime true r.date r.time, r.val with
  | some t, some v => some ⟨t, v⟩
  | _, _ => none

/-- The cleaned sample table, in input row order. -/
def cleanRows (rows : List Row) : List Sample := rows.filterMap cleanRow

/-- Predicate of line 44: the absolute value of the reading is zero. -/
def zeroVal (s : Sample) : Bool := decide (|s.value| = 0)

/-- Lines 44-52, `df.loc[first_valid_idx:last_valid_idx]`: remove the maximal
prefix and the maximal suffix of zero readings (in row order), keeping the
infix between the first and the last nonzero reading. -/
def trimZeros (l : List Sample) : List Sample :=
  (((l.dropWhile zeroVal).reverse).dropWhile zeroVal).reverse

/-- pandas `.floor('10min')` on the timestamp index (line 57). -/
def floor10 (t : Nat) : Nat := t - t % 600

/-- pandas `.floor('D')` (line 71). -/
def floorDay (t : Nat) : Nat := t - t % 86400

/-- pandas `.ceil('D')` (line 72); an exact midnight stays put. -/
def ceilDay (t : Nat) : Nat := if t % 86400 = 0 then t else floorDay t + 86400

/-- Calendar day of an instant (`.dt.date`, lines 68 and 93). -/
def dayOf (t : Nat) : Nat := t / 86400

/-- Sum of the readings whose floored instant is slot `t` (the per-group sum
of line 59). -/
def slotSum (t : Nat) (l : List Sample) : ℚ :=
  ((l.filter fun s => decide (floor10 s.instant = t)).map Sample.value).sum

/-- Insertion into an ascending list. -/
def insertSorted (x : Nat) : List Nat → List Nat
  | [] => [x]
  | y :: ys => if x ≤ y then x :: y :: ys else y :: insertSorted x ys

/-- Ascending sort (pandas `groupby` sorts its group keys). -/
def sortNat (l : List Nat) : List Nat := l.foldr insertSorted []

/-- Distinct floored slot keys, ascending: the group index of line 59. -/
def groupKeys (l : List Sample) : List Nat :=
  sortNat ((l.map fun s => floor10 s.instant).dedup)

/-- Lines 56-62: floor the timestamp index to 10-minute slots and sum the
readings per slot; this is `df_out` as a list of `(Rounded, PSumW)` pairs. -/
def groupSum (l : List Sample) : List (Nat × ℚ) :=
  (groupKeys l).map fun t => (t, slotSum t l)

/-- Minimum of a list of naturals (pandas `.min()`, line 71). -/
def listMin : List Nat → Nat
  | [] => 0
  | x :: xs => xs.foldl Nat.min x

/-- Maximum of a list of naturals (pandas `.max()`, line 72). -/
def listMax : List Nat → Nat
  | [] => 0
  | x :: xs => xs.foldl Nat.max x

/-- One output row of `process_sheet`: the `Rounded` index, the `Date` and
`Time` columns (day index and second-of-day), and the four value columns
`PSumW`, `kW`, `Energy (kWh)`, `Cumulative Energy`; `none` is a NaN cell,
rendered blank. -/
structure OutRow where
  rounded : Nat
  date : Nat
  time : Nat
  psumW : Option ℚ
  kW : Option ℚ
  energy : Option ℚ
  cumEnergy : Option ℚ
deriving DecidableEq

/-- Lines 93-111 applied to one contiguous day group: attach `Date`, `Time`,
`kW = |PSumW|/1000` (line 100), `Energy = |PSumW|/6000` (line 107) and the
running energy sum of line 111 (`cumsum().where(x.notna())`: a blank row
stays blank and does not advance the sum). -/
def mkDayRows (acc : ℚ) : List (Nat × Option ℚ) → List OutRow
  | [] => []
  | (t, none) :: rest =>
    ⟨t, dayOf t, t % 86400, none, none, none, none⟩ :: mkDayRows acc rest
  | (t, some v) :: rest =>
    ⟨t, dayOf t, t % 86400, some v, some (|v| / 1000), some (|v| / 6000),
      some (acc + |v| / 6000)⟩ :: mkDayRows (acc + |v| / 6000) rest

/-- Contiguous day runs of the padded frame. The `groupby("Date")` of line
111 groups rows of equal date; the padded index is ascending, so the groups
are exactly the maximal contiguous runs of equal `Date`. -/
def splitRuns : List (Nat × Option ℚ) → List (List (Nat × Option ℚ))
  | [] => []
  | x :: xs =>
    match splitRuns xs with
    | [] => [[x]]
    | [] :: gs => [x] :: gs
    | (y :: g) :: gs =>
      if dayOf x.1 = dayOf y.1 then (x :: y :: g) :: gs
      else [x] :: (y :: g) :: gs

/-- The aggregated frame `df_out` of lines 55-62 for a given input. -/
def dfOut (rows : List Row) : List (Nat × ℚ) :=
  groupSum (trimZeros (cleanRows rows))

/-- The `Rounded` timestamps of `df_out`. -/
def tsOf (rows : List Row) : List Nat := (dfOut rows).map Prod.fst

/-- Line 71: `min_dt = df_out['Rounded'].min().floor('D')`. -/
def minDT (rows : List Row) : Nat := floorDay (listMin (tsOf rows))

/-- Line 72: `max_dt_exclusive = df_out['Rounded'].max().ceil('D')`. -/
def maxDTex (rows : List Row) : Nat := ceilDay (listMax (tsOf rows))

/-- Line 68: the set of dates present in the aggregated data. -/
def origDates (rows : List Row) : List Nat :=
  ((dfOut rows).map fun p => dayOf p.1).dedup

/-- Lines 17-113, `process_sheet`: clean the rows (and return empty when
nothing parses), return empty when every reading is zero, trim the zero
edges, bucket and sum into `df_out` (empty result propagates), compute the
padded 10-minute range over whole days (empty on a degenerate range), keep
only the originally present dates, and attach the derived columns per day
group. -/
def process_sheet (rows : List Row) : List OutRow :=
  if (cleanRows rows).isEmpty then [] else
  if ((cleanRows rows).filter fun s => !zeroVal s).isEmpty then [] else
  if (dfOut rows).isEmpty then [] else
  if maxDTex rows ≤ minDT rows then [] else
  let full := (List.range ((maxDTex rows - minDT rows) / 600)).map
    fun i => minDT rows + 600 * i
  let padded := full.map fun t => (t, (dfOut rows).lookup t)
  let grouped := padded.filter fun p => (origDates rows).contains (dayOf p.1)
  (splitRuns grouped).flatMap (mkDayRows 0)

/-- The 144 slot instants of calendar day `d`. -/
def slotTimes (d : Nat) : List Nat :=
  (List.range 144).map fun k => 86400 * d + 600 * k

/-- The padded (reindexed) frame restricted to day `d`: every slot of the
day, with the aggregate looked up in `df_out` (`none` when no slot matches;
line 85's `reindex`). -/
def paddedDay (D : List (Nat × ℚ)) (d : Nat) : List (Nat × Option ℚ) :=
  (slotTimes d).map fun t => (t, D.lookup t)

/-- First day of the padded range (`min_dt` as a day index). -/
def dayLo (rows : List Row) : Nat := dayOf (listMin (tsOf rows))

/-- One past the last day of the padded range (`max_dt_exclusive / 1 day`). -/
def dayHiEx (rows : List Row) : Nat := maxDTex rows / 86400

/-- The days the output actually contains: the days of the padded range that
appear in the aggregated data (line 97's filter). -/
def keptDays (rows : List Row) : List Nat :=
  ((List.range (dayHiEx rows - dayLo rows)).map fun j => dayLo rows + j).filter
    fun d => (origDates rows).contains d

/-- Insertion into a list ascending by the `Time` column. -/
def insertByTime (r : OutRow) : List OutRow → List OutRow
  | [] => [r]
  | x :: xs => if r.time ≤ x.time then r :: x :: xs else x :: insertByTime r xs

/-- Sort by the `Time` column (`sort_values("Time")`; the `HH:MM` labels are
fixed-width, so their lexicographic order is the numeric order of the
second-of-day). -/
def sortByTime (l : List OutRow) : List OutRow := l.foldr insertByTime []

/-- Lines 204-216 of `build_output_excel`: the rows written for one day are
`df[df["Date"] == date].sort_values("Time")`. -/
def dayBlock (out : List OutRow) (d : Nat) : List OutRow :=
  sortByTime (out.filter fun r => r.date == d)

/-- A row holds a present, nonzero aggregate. -/
def nonzeroAgg (r : OutRow) : Bool :=
  match r.psumW with
  | some v => decide (v ≠ 0)
  | none => false

/-- Claim C2 read on the output grid (the part the code falsifies): in any
day that has some nonzero aggregate, a row that has no nonzero aggregate
at-or-before it in its day (it lies strictly before the day's first nonzero
slot), or none at-or-after it (strictly after the last), is marked absent. -/
def slotTrimClaim (out : List OutRow) : Prop :=
  ∀ r ∈ out,
    (∃ r2 ∈ out, r2.date = r.date ∧ nonzeroAgg r2) →
    ((∀ r2 ∈ out, r2.date = r.date → r2.time ≤ r.time → ¬ nonzeroAgg r2) ∨
     (∀ r2 ∈ out, r2.date = r.date → r.time ≤ r2.time → ¬ nonzeroAgg r2)) →
    r.psumW = none

/-- Claim C3: every day between the first and the last day holding a cleaned
sample appears in the output with each of its 144 slots. -/
def gapClaim (rows : List Row) : Prop :=
  ∀ d k, listMin ((cleanRows rows).map fun s => dayOf s.instant) ≤ d →
    d ≤ listMax ((cleanRows rows).map fun s => dayOf s.instant) →
    k < 144 →
    ∃ r ∈ process_sheet rows, r.date = d ∧ r.time = 600 * k

/-- Date cell for day `d` of January 2024 (`d/1/2024`, day-first). -/
def exDate (d : Nat) : DateText := ⟨d, 1, 2024⟩

/-- Concrete input row: day `d` of January 2024, time `h:mi:s`, reading `v`. -/
def exRow (d h mi s : Nat) (v : ℚ) : Row := ⟨exDate d, ⟨h, mi, s⟩, some v⟩

/-- Readings 5 at 12:01, -5 at 12:05 and 7 at 12:15 on 1 Jan 2024: the first
two cancel inside slot 12:00, so the first nonzero aggregate sits at 12:10
while slot 12:00 carries a real zero. -/
def trimCexInput : List Row :=
  [exRow 1 12 1 0 5, exRow 1 12 5 0 (-5), exRow 1 12 15 0 7]

/-- Nonzero readings on 1 Jan and 3 Jan 2024 and none on 2 Jan. -/
def gapCexInput : List Row := [exRow 1 12 0 0 5, exRow 3 12 0 0 7]

/-- Samples 100 at 12:11:00 and 50 at 12:14:30 on 1 Jan 2024. -/
def sumExInput : List Row := [exRow 1 12 11 0 100, exRow 1 12 14 30 50]

/-- Energy cell derived from a padded `(Rounded, PSumW)` pair:
`|PSumW| / 6000`, blank on a blank reading (line 107). -/
def eOf (q : Nat × Option ℚ) : Option ℚ := q.2.map fun v => |v| / 6000

/-- Sum of the present energy cells of a padded prefix (what the
`cumsum` of line 111 accumulates). -/
def eSum (g : List (Nat × Option ℚ)) : ℚ := (g.filterMap eOf).sum

/-- A single row whose power cell failed numeric coercion. -/
def badInput : List Row := [⟨exDate 1, ⟨0, 0, 0⟩, none⟩]

/-- A single parsed row whose reading is zero. -/
def zeroInput : List Row := [exRow 1 0 0 0 0]

/-- A single nonzero reading exactly at midnight: the floored day range is
degenerate (`min_dt = max_dt_exclusive`). -/
def midnightInput : List Row := [exRow 1 0 0 0 5]

/-! Helper lemmas about `dropWhile` and the zero trim. -/

theorem head_dropWhile_false {α : Type} (p : α → Bool) :
    ∀ (l : List α) (x : α), (l.dropWhile p).head? = some x → p x = false := by
  intro l
  induction l with
  | nil => intro x hx; simp at hx
  | cons a l ih =>
    intro x hx
    rw [List.dropWhile_cons] at hx
    by_cases hp : p a = true
    · exact ih x (by simpa [hp] using hx)
    · have hxa : x = a := by
        simp [hp] at hx
        exact hx.symm
      subst hxa
      simpa using hp

theorem dropWhile_eq_self_of_head {α : Type} (p : α → Bool) (l : List α)
    (h : ∀ x, l.head? = some x → p x = false) : l.dropWhile p = l := by
  cases l with
  | nil => rfl
  | cons a l => rw [List.dropWhile_cons, h a rfl]; simp

theorem getLast?_dropWhile {α : Type} (p : α → Bool) :
    ∀ l : List α, l.dropWhile p ≠ [] → (l.dropWhile p).getLast? = l.getLast? := by
  intro l
  induction l with
  | nil => intro h; simp at h
  | cons a l ih =>
    intro h
    rw [List.dropWhile_cons]
    by_cases hp : p a = true
    · rw [List.dropWhile_cons, if_pos hp] at h
      have hl : l ≠ [] := by
        intro he; subst he; simp at h
      rw [if_pos hp, ih h]
      cases l with
      | nil => exact absurd rfl hl
      | cons b l2 => rw [List.getLast?_cons_cons]
    · rw [if_neg hp]

theorem trim_head (l : List Sample) (x : Sample)
    (h : (trimZeros l).head? = some x) : zeroVal x = false := by
  unfold trimZeros at h
  rw [List.head?_reverse] at h
  have hne : ((l.dropWhile zeroVal).reverse).dropWhile zeroVal ≠ [] := by
    intro he; rw [he] at h; simp at h
  rw [getLast?_dropWhile zeroVal _ hne, List.getLast?_reverse] at h
  exact head_dropWhile_false zeroVal _ _ h

theorem trim_last (l : List Sample) (x : Sample)
    (h : (trimZeros l).getLast? = some x) : zeroVal x = false := by
  unfold trimZeros at h
  rw [List.getLast?_reverse] at h
  exact head_dropWhile_false zeroVal _ _ h

theorem trim_trim (l : List Sample) : trimZeros (trimZeros l) = trimZeros l := by
  have h1 : (trimZeros l).dropWhile zeroVal = trimZeros l :=
    dropWhile_eq_self_of_head _ _ (fun x hx => trim_head l x hx)
  have h2 : ((trimZeros l).reverse).dropWhile zeroVal = (trimZeros l).reverse := by
    refine dropWhile_eq_self_of_head _ _ (fun x hx => ?_)
    rw [List.head?_reverse] at hx
    exact trim_last l x hx
  show (((trimZeros l).dropWhile zeroVal).reverse.dropWhile zeroVal).reverse = trimZeros l
  rw [h1, h2, List.reverse_reverse]

theorem zeroVal_value {s : Sample} (h : zeroVal s = true) : s.value = 0 := by
  have := of_decide_eq_true h
  exact abs_eq_zero.mp this

theorem reverse_split (m : List Sample) :
    m = ((m.reverse.dropWhile zeroVal).reverse) ++ ((m.reverse.takeWhile zeroVal).reverse) := by
  have h : m.reverse.takeWhile zeroVal ++ m.reverse.dropWhile zeroVal = m.reverse :=
    List.takeWhile_append_dropWhile zeroVal m.reverse
  calc m = m.reverse.reverse := (List.reverse_reverse m).symm
    _ = (m.reverse.takeWhile zeroVal ++ m.reverse.dropWhile zeroVal).reverse := by rw [h]
    _ = _ := by rw [List.reverse_append]

theorem trim_decomposition (l : List Sample) :
    ∃ pre suf, l = pre ++ trimZeros l ++ suf ∧
      (∀ s ∈ pre, s.value = 0) ∧ (∀ s ∈ suf, s.value = 0) := by
  refine ⟨l.takeWhile zeroVal,
    (((l.dropWhile zeroVal).reverse).takeWhile zeroVal).reverse, ?_, ?_, ?_⟩
  · have h1 : l = l.takeWhile zeroVal ++ l.dropWhile zeroVal :=
      (List.takeWhile_append_dropWhile zeroVal l).symm
    have h2 : l.dropWhile zeroVal =
        trimZeros l ++ (((l.dropWhile zeroVal).reverse).takeWhile zeroVal).reverse :=
      reverse_split (l.dropWhile zeroVal)
    nth_rewrite 1 [h1]
    nth_rewrite 1 [h2]
    rw [List.append_assoc]
  · intro s hs
    exact zeroVal_value (List.mem_takeWhile_imp hs)
  · intro s hs
    rw [List.mem_reverse] at hs
    exact zeroVal_value (List.mem_takeWhile_imp hs)

/-- Claim C9, confirmed: the leading/trailing-zero trim of lines 44-52 is
idempotent on every cleaned sample table. -/
theorem c9_trim_idempotent : ∀ l : List Sample, trimZeros (trimZeros l) = trimZeros l :=
  trim_trim

/-- Claim C2, counterexample: on readings 5 at 12:01, -5 at 12:05 and 7 at
12:15 of one day, slot 12:00 lies strictly before the day's first nonzero
aggregate (12:10) yet the output keeps its real zero aggregate instead of
marking it absent — the code trims samples, not slots of the aggregated
grid. -/
theorem c2_counterexample : ¬ slotTrimClaim (process_sheet trimCexInput) := by
  intro h
  have hr := h ⟨mkTimestamp 2024 1 1 12 0 0, dayNumber 2024 1 1, 43200,
      some 0, some 0, some 0, some 0⟩ (by decide!) (by decide!) (Or.inl (by decide!))
  exact absurd hr (by decide!)

/-- Claim C2 as amended: the trim of lines 44-52 acts on the sample list
before bucketing (globally, not per day of the aggregated grid): it removes
precisely a zero-valued prefix and a zero-valued suffix of the row sequence,
keeps every sample in between, and what remains starts and ends with a
nonzero sample. -/
theorem c2_trim_is_samplewise (l : List Sample) :
    (∃ pre suf, l = pre ++ trimZeros l ++ suf ∧
      (∀ s ∈ pre, s.value = 0) ∧ (∀ s ∈ suf, s.value = 0)) ∧
    (∀ s, (trimZeros l).head? = some s → s.value ≠ 0) ∧
    (∀ s, (trimZeros l).getLast? = some s → s.value ≠ 0) := by
  refine ⟨trim_decomposition l, ?_, ?_⟩
  · intro s hs hv
    have := trim_head l s hs
    rw [zeroVal, hv] at this
    simp at this
  · intro s hs hv
    have := trim_last l s hs
    rw [zeroVal, hv] at this
    simp at this

theorem c2_trim_witness : (Sample.mk 0 1).value ≠ 0 :=
  (c2_trim_is_samplewise [Sample.mk 0 1]).2.1 (Sample.mk 0 1) (by decide)

/-- Claim C1, confirmed: the bucketing of line 57 floors every instant to
the largest 10-minute-aligned instant at or below it; in particular 12:12:01
and 12:19:59 map to 12:10:00 and 12:10:00 maps to itself. -/
theorem c1_flooring :
    (∀ t, floor10 t ≤ t ∧ 600 ∣ floor10 t ∧ ∀ u, 600 ∣ u → u ≤ t → u ≤ floor10 t) ∧
    floor10 (mkTimestamp 2024 1 1 12 12 1) = mkTimestamp 2024 1 1 12 10 0 ∧
    floor10 (mkTimestamp 2024 1 1 12 10 0) = mkTimestamp 2024 1 1 12 10 0 ∧
    floor10 (mkTimestamp 2024 1 1 12 19 59) = mkTimestamp 2024 1 1 12 10 0 := by
  refine ⟨fun t => ⟨Nat.sub_le _ _, ?_, ?_⟩, by decide, by decide, by decide⟩
  · refine ⟨t / 600, ?_⟩
    unfold floor10; omega
  · intro u hu hut
    rcases hu with ⟨m, rfl⟩
    unfold floor10; omega

theorem c1_flooring_witness : 600 ∣ 43800 ∧ 43800 ≤ 43921 ∧ 43800 ≤ floor10 43921 :=
  ⟨by decide, by decide, (c1_flooring.1 43921).2.2 43800 (by decide) (by decide)⟩

theorem daysInMonth_ge28 (y m : Nat) : 28 ≤ daysInMonth y m := by
  unfold daysInMonth
  split
  · split <;> omega
  · split <;> omega

/-- Claim C7, confirmed: the parsing of line 30 passes `dayfirst=True`
explicitly, so every ambiguous day/month date `a/b/y` (both fields at most
12) resolves with day `a` and month `b`; in particular `03/04/2024` parses
as 3 April 2024. -/
theorem c7_dayfirst_parsing :
    (∀ a b y h mi s (v : ℚ), 1 ≤ a → a ≤ 12 → 1 ≤ b → b ≤ 12 → 1 ≤ y →
      h < 24 → mi < 60 → s < 60 →
      cleanRow ⟨⟨a, b, y⟩, ⟨h, mi, s⟩, some v⟩ =
        some ⟨mkTimestamp y b a h mi s, v⟩) ∧
    cleanRow ⟨⟨3, 4, 2024⟩, ⟨0, 0, 0⟩, some 1⟩ =
      some ⟨mkTimestamp 2024 4 3 0 0 0, 1⟩ := by
  constructor
  · intro a b y h mi s v ha1 ha2 hb1 hb2 hy hh hmi hs
    have hdm : resolveDayMonth true a b = (a, b) := by
      unfold resolveDayMonth
      simp [hb2]
    have hdt : to_datetime true ⟨a, b, y⟩ ⟨h, mi, s⟩ =
        some (mkTimestamp y b a h mi s) := by
      unfold to_datetime
      rw [hdm]
      have hmon : a ≤ daysInMonth y b := le_trans (le_trans ha2 (by omega))
        (daysInMonth_ge28 y b)
      rw [if_pos ⟨hb1, hb2, ha1, hmon, hy, hh, hmi, hs⟩]
    unfold cleanRow
    rw [hdt]
  · decide

theorem c7_witness : cleanRow ⟨⟨3, 4, 2024⟩, ⟨0, 0, 0⟩, some 1⟩ =
    some ⟨mkTimestamp 2024 4 3 0 0 0, 1⟩ :=
  c7_dayfirst_parsing.1 3 4 2024 0 0 0 1 (by decide) (by decide) (by decide)
    (by decide) (by decide) (by decide) (by decide) (by decide)

/-- Claim C8, confirmed: `process_sheet` returns the empty result, rather
than signalling an error, whenever cleaning drops every row, or every
remaining reading is zero, or the floored day range is degenerate
(`min_dt >= max_dt_exclusive`). -/
theorem c8_degenerate_empty (rows : List Row) :
    (cleanRows rows = [] → process_sheet rows = []) ∧
    ((∀ s ∈ cleanRows rows, s.value = 0) → process_sheet rows = []) ∧
    (maxDTex rows ≤ minDT rows → process_sheet rows = []) := by
  refine ⟨?_, ?_, ?_⟩ <;> intro h <;> unfold process_sheet
  · rw [h]; rfl
  · have hf : ((cleanRows rows).filter fun s => !zeroVal s) = [] := by
      rw [List.filter_eq_nil_iff]
      intro s hs
      simp [zeroVal, h s hs]
    split
    · rfl
    · rw [hf]; rfl
  · split
    · rfl
    · split
      · rfl
      · split
        · rfl
        · rfl

/-! Helper lemmas about grouping, lookup, and extrema. -/

theorem mem_insertSorted {x a : Nat} :
    ∀ {l : List Nat}, x ∈ insertSorted a l ↔ x = a ∨ x ∈ l := by
  intro l
  induction l with
  | nil => simp [insertSorted]
  | cons y ys ih =>
    unfold insertSorted
    split
    · simp
    · simp only [List.mem_cons, ih]
      tauto

theorem mem_sortNat {x : Nat} : ∀ {l : List Nat}, x ∈ sortNat l ↔ x ∈ l := by
  intro l
  induction l with
  | nil => simp [sortNat]
  | cons y ys ih =>
    show x ∈ insertSorted y (sortNat ys) ↔ _
    rw [mem_insertSorted]
    simp only [List.mem_cons, ih]

theorem mem_groupKeys {t : Nat} {l : List Sample} :
    t ∈ groupKeys l ↔ ∃ s ∈ l, floor10 s.instant = t := by
  unfold groupKeys
  rw [mem_sortNat, List.mem_dedup]
  simp

theorem lookup_map_keys (f : Nat → ℚ) :
    ∀ (ks : List Nat) (t : Nat),
      ((ks.map fun k => (k, f k)).lookup t) = if t ∈ ks then some (f t) else none := by
  intro ks
  induction ks with
  | nil => intro t; simp [List.lookup]
  | cons k ks ih =>
    intro t
    by_cases h : t = k
    · subst h
      simp [List.lookup]
    · have hbeq : (t == k) = false := by
        simp [h]
      simp only [List.map_cons, List.lookup, hbeq, ih, List.mem_cons]
      by_cases hm : t ∈ ks <;> simp [hm, h]

theorem lookup_groupSum (l : List Sample) (t : Nat) :
    (groupSum l).lookup t = if t ∈ groupKeys l then some (slotSum t l) else none :=
  lookup_map_keys (fun u => slotSum u l) (groupKeys l) t

theorem mem_groupSum {l : List Sample} {t : Nat} {v : ℚ} :
    (t, v) ∈ groupSum l ↔ t ∈ groupKeys l ∧ v = slotSum t l := by
  unfold groupSum
  rw [List.mem_map]
  constructor
  · rintro ⟨u, hu, heq⟩
    have h1 : u = t := congrArg Prod.fst heq
    subst h1
    have h2 : slotSum u l = v := congrArg Prod.snd heq
    exact ⟨hu, h2.symm⟩
  · rintro ⟨h1, rfl⟩
    exact ⟨t, h1, rfl⟩

theorem slotSum_append (t : Nat) (l1 l2 : List Sample) :
    slotSum t (l1 ++ l2) = slotSum t l1 + slotSum t l2 := by
  unfold slotSum
  rw [List.filter_append, List.map_append, List.sum_append]

theorem slotSum_zero (t : Nat) (l : List Sample) (h : ∀ s ∈ l, s.value = 0) :
    slotSum t l = 0 := by
  unfold slotSum
  apply List.sum_eq_zero
  intro x hx
  rw [List.mem_map] at hx
  obtain ⟨s, hs, rfl⟩ := hx
  exact h s (List.mem_filter.mp hs).1

theorem slotSum_trim (l : List Sample) (t : Nat) :
    slotSum t (trimZeros l) = slotSum t l := by
  obtain ⟨pre, suf, hdec, hpre, hsuf⟩ := trim_decomposition l
  conv_rhs => rw [hdec]
  rw [List.append_assoc, slotSum_append, slotSum_append,
    slotSum_zero t pre hpre, slotSum_zero t suf hsuf]
  ring

theorem foldl_min_le (xs : List Nat) :
    ∀ a, (xs.foldl Nat.min a ≤ a ∧ ∀ x ∈ xs, xs.foldl Nat.min a ≤ x) := by
  induction xs with
  | nil => intro a; exact ⟨le_refl a, by simp⟩
  | cons b xs ih =>
    intro a
    have h := ih (Nat.min a b)
    refine ⟨le_trans h.1 (Nat.min_le_left a b), ?_⟩
    intro x hx
    rcases List.mem_cons.mp hx with h1 | h1
    · subst h1
      exact le_trans h.1 (Nat.min_le_right a x)
    · exact h.2 x h1

theorem le_foldl_max (xs : List Nat) :
    ∀ a, (a ≤ xs.foldl Nat.max a ∧ ∀ x ∈ xs, x ≤ xs.foldl Nat.max a) := by
  induction xs with
  | nil => intro a; exact ⟨le_refl a, by simp⟩
  | cons b xs ih =>
    intro a
    have h := ih (Nat.max a b)
    refine ⟨le_trans (Nat.le_max_left a b) h.1, ?_⟩
    intro x hx
    rcases List.mem_cons.mp hx with h1 | h1
    · subst h1
      exact le_trans (Nat.le_max_right a x) h.1
    · exact h.2 x h1

theorem listMin_le {l : List Nat} {x : Nat} (h : x ∈ l) : listMin l ≤ x := by
  cases l with
  | nil => simp at h
  | cons a xs =>
    rcases List.mem_cons.mp h with h1 | h1
    · subst h1; exact (foldl_min_le xs x).1
    · exact (foldl_min_le xs a).2 x h1

theorem le_listMax {l : List Nat} {x : Nat} (h : x ∈ l) : x ≤ listMax l := by
  cases l with
  | nil => simp at h
  | cons a xs =>
    rcases List.mem_cons.mp h with h1 | h1
    · subst h1; exact (le_foldl_max xs x).1
    · exact (le_foldl_max xs a).2 x h1

/-! Helper lemmas decomposing the padded range into whole days. -/

theorem floorDay_eq (t : Nat) : floorDay t = 86400 * dayOf t := by
  unfold floorDay dayOf
  omega

theorem ceilDay_mul (t : Nat) : ceilDay t = 86400 * (ceilDay t / 86400) := by
  unfold ceilDay floorDay
  split <;> omega

theorem lt_ceilDay (t : Nat) : t < ceilDay t ∨ ceilDay t = t := by
  unfold ceilDay floorDay
  split <;> omega

theorem minDT_eq (rows : List Row) : minDT rows = 86400 * dayLo rows := by
  unfold minDT dayLo
  exact floorDay_eq _

theorem maxDTex_eq (rows : List Row) : maxDTex rows = 86400 * dayHiEx rows := by
  unfold maxDTex dayHiEx
  exact ceilDay_mul _

theorem range_mul_map {α : Type} (m : Nat) (g : Nat → α) :
    ∀ n : Nat, (List.range (n * m)).map g =
      (List.range n).flatMap fun j => (List.range m).map fun k => g (m * j + k) := by
  intro n
  induction n with
  | zero => simp
  | succ n ih =>
    rw [Nat.succ_mul, List.range_add, List.map_append, ih, List.range_succ,
      List.flatMap_append]
    congr 1
    simp only [List.flatMap_cons, List.flatMap_nil, List.append_nil, List.map_map]
    apply List.map_congr_left
    intro k _
    show g (n * m + k) = g (m * n + k)
    rw [Nat.mul_comm]

theorem slotTimes_day (d : Nat) : ∀ t ∈ slotTimes d, dayOf t = d := by
  intro t ht
  unfold slotTimes at ht
  rw [List.mem_map] at ht
  obtain ⟨k, hk, rfl⟩ := ht
  rw [List.mem_range] at hk
  unfold dayOf
  omega

theorem paddedDay_day (D : List (Nat × ℚ)) (d : Nat) :
    ∀ p ∈ paddedDay D d, dayOf p.1 = d := by
  intro p hp
  unfold paddedDay at hp
  rw [List.mem_map] at hp
  obtain ⟨t, ht, rfl⟩ := hp
  exact slotTimes_day d t ht

theorem paddedDay_ne_nil (D : List (Nat × ℚ)) (d : Nat) : paddedDay D d ≠ [] := by
  unfold paddedDay slotTimes
  simp

theorem full_eq_flatMap (A B : Nat) :
    ((List.range ((B - A) * 144)).map fun i => 86400 * A + 600 * i) =
      (List.range (B - A)).flatMap fun j => slotTimes (A + j) := by
  rw [range_mul_map 144 (fun i => 86400 * A + 600 * i) (B - A)]
  apply List.flatMap_congr
  intro j _
  unfold slotTimes
  apply List.map_congr_left
  intro k _
  omega

theorem flatMap_if (P : Nat → Bool) (f : Nat → List (Nat × Option ℚ)) :
    ∀ ds : List Nat,
      (ds.flatMap fun d => if P d then f d else []) = (ds.filter P).flatMap f := by
  intro ds
  induction ds with
  | nil => rfl
  | cons d ds ih =>
    rw [List.flatMap_cons, List.filter_cons]
    by_cases h : P d = true
    · rw [if_pos h, if_pos h, List.flatMap_cons, ih]
    · rw [if_neg h, if_neg h, List.nil_append, ih]

/-! Helper lemmas about `splitRuns` and the shape of the final output. -/

theorem splitRuns_cons (x : Nat × Option ℚ) (xs : List (Nat × Option ℚ)) :
    splitRuns (x :: xs) =
      match splitRuns xs with
      | [] => [[x]]
      | [] :: gs => [x] :: gs
      | (y :: g) :: gs =>
        if dayOf x.1 = dayOf y.1 then (x :: y :: g) :: gs
        else [x] :: (y :: g) :: gs := rfl

theorem splitRuns_cons_shape (x : Nat × Option ℚ) (xs : List (Nat × Option ℚ)) :
    ∃ g gs, splitRuns (x :: xs) = (x :: g) :: gs := by
  rw [splitRuns_cons]
  cases h : splitRuns xs with
  | nil => exact ⟨[], [], rfl⟩
  | cons g0 gs =>
    cases g0 with
    | nil => exact ⟨[], gs, rfl⟩
    | cons y g =>
      by_cases hd : dayOf x.1 = dayOf y.1
      · exact ⟨y :: g, gs, by simp [hd]⟩
      · exact ⟨[], (y :: g) :: gs, by simp [hd]⟩

theorem splitRuns_prepend (d : Nat) :
    ∀ (b rest : List (Nat × Option ℚ)), b ≠ [] →
      (∀ p ∈ b, dayOf p.1 = d) → (∀ p ∈ rest, dayOf p.1 ≠ d) →
      splitRuns (b ++ rest) = b :: splitRuns rest := by
  intro b
  induction b with
  | nil => intro rest hne _ _; exact absurd rfl hne
  | cons x b2 ih =>
    intro rest _ hb hrest
    cases b2 with
    | nil =>
      rw [List.cons_append, List.nil_append]
      cases rest with
      | nil => rfl
      | cons y ys =>
        obtain ⟨g, gs, hsr⟩ := splitRuns_cons_shape y ys
        have hxd : dayOf x.1 = d := hb x (by simp)
        have hyd : dayOf y.1 ≠ d := hrest y (by simp)
        have hne2 : ¬ dayOf x.1 = dayOf y.1 := by
          rw [hxd]; exact fun he => hyd he.symm
        rw [splitRuns_cons, hsr]
        simp [hne2]
    | cons z b3 =>
      have hb2 : ∀ p ∈ z :: b3, dayOf p.1 = d := by
        intro p hp; exact hb p (List.mem_cons_of_mem x hp)
      have ih2 := ih rest (by simp) hb2 hrest
      have hzd : dayOf x.1 = dayOf z.1 := by
        rw [hb x (by simp), hb2 z (by simp)]
      rw [List.cons_append, splitRuns_cons, ih2]
      simp [hzd]

theorem splitRuns_blocks (D : List (Nat × ℚ)) :
    ∀ ds : List Nat, ds.Pairwise (· < ·) →
      splitRuns (ds.flatMap (paddedDay D)) = ds.map (paddedDay D) := by
  intro ds
  induction ds with
  | nil => intro _; rfl
  | cons d ds ih =>
    intro hp
    rw [List.pairwise_cons] at hp
    have hrest : ∀ p ∈ ds.flatMap (paddedDay D), dayOf p.1 ≠ d := by
      intro p hp2
      rw [List.mem_flatMap] at hp2
      obtain ⟨e, he, hpe⟩ := hp2
      rw [paddedDay_day D e p hpe]
      exact Nat.ne_of_gt (hp.1 e he)
    rw [List.flatMap_cons,
      splitRuns_prepend d (paddedDay D d) _ (paddedDay_ne_nil D d) (paddedDay_day D d) hrest,
      ih hp.2, List.map_cons]

theorem keptDays_pairwise (rows : List Row) : (keptDays rows).Pairwise (· < ·) := by
  unfold keptDays
  apply List.Pairwise.filter
  rw [List.pairwise_map]
  exact (List.pairwise_lt_range _).imp (by omega)

theorem filter_day_block (D : List (Nat × ℚ)) (d : Nat) (q : Nat → Bool) :
    ((paddedDay D d).filter fun p => q (dayOf p.1)) =
      if q d then paddedDay D d else [] := by
  by_cases h : q d = true
  · rw [if_pos h]
    apply List.filter_eq_self.mpr
    intro p hp
    rw [paddedDay_day D d p hp, h]
  · rw [if_neg h]
    apply List.filter_eq_nil_iff.mpr
    intro p hp
    rw [paddedDay_day D d p hp]
    simp [h]

/-- Master characterization: whenever the aggregated frame is nonempty and
the day range is not degenerate, the output of `process_sheet` is, day by
kept day, the full 144-slot padded block with the derived columns
attached. -/
theorem process_sheet_eq (rows : List Row)
    (h3 : (dfOut rows).isEmpty = false) (h4 : ¬ maxDTex rows ≤ minDT rows) :
    process_sheet rows =
      (keptDays rows).flatMap fun d => mkDayRows 0 (paddedDay (dfOut rows) d) := by
  have hc1 : (cleanRows rows).isEmpty = false := by
    cases hcl : cleanRows rows with
    | nil =>
      have hz : dfOut rows = [] := by unfold dfOut; rw [hcl]; rfl
      rw [hz] at h3; simp at h3
    | cons a l => rfl
  have hc2 : ((cleanRows rows).filter fun s => !zeroVal s).isEmpty = false := by
    cases hf : ((cleanRows rows).filter fun s => !zeroVal s).isEmpty
    · rfl
    · exfalso
      rw [List.isEmpty_iff] at hf
      have hall : ∀ s ∈ cleanRows rows, zeroVal s = true := by
        intro s hs
        have h5 := List.filter_eq_nil_iff.mp hf s hs
        simpa using h5
      have hdw : (cleanRows rows).dropWhile zeroVal = [] :=
        List.dropWhile_eq_nil_iff.mpr hall
      have htz : trimZeros (cleanRows rows) = [] := by
        unfold trimZeros
        rw [hdw]
        rfl
      have hz : dfOut rows = [] := by unfold dfOut; rw [htz]; rfl
      rw [hz] at h3; simp at h3
  have hstep : process_sheet rows =
      (splitRuns ((((List.range ((maxDTex rows - minDT rows) / 600)).map
          fun i => minDT rows + 600 * i).map
            fun t => (t, (dfOut rows).lookup t)).filter
              fun p => (origDates rows).contains (dayOf p.1))).flatMap
        (mkDayRows 0) := by
    unfold process_sheet
    rw [if_neg (by simp [hc1]), if_neg (by simp [hc2]), if_neg (by simp [h3]), if_neg h4]
  rw [hstep]
  have hrange : (maxDTex rows - minDT rows) / 600 =
      (dayHiEx rows - dayLo rows) * 144 := by
    rw [minDT_eq, maxDTex_eq]
    omega
  rw [hrange, minDT_eq, full_eq_flatMap (dayLo rows) (dayHiEx rows),
    List.map_flatMap, List.filter_flatMap]
  have hcong : ∀ j ∈ List.range (dayHiEx rows - dayLo rows),
      (((slotTimes (dayLo rows + j)).map fun t => (t, (dfOut rows).lookup t)).filter
        fun p => (origDates rows).contains (dayOf p.1)) =
      (if (origDates rows).contains (dayLo rows + j) then
        paddedDay (dfOut rows) (dayLo rows + j) else []) := by
    intro j _
    exact filter_day_block (dfOut rows) (dayLo rows + j) ((origDates rows).contains)
  rw [List.flatMap_congr hcong]
  have hL4 : ((List.range (dayHiEx rows - dayLo rows)).flatMap fun j =>
      if (origDates rows).contains (dayLo rows + j) then
        paddedDay (dfOut rows) (dayLo rows + j) else []) =
      (keptDays rows).flatMap (paddedDay (dfOut rows)) := by
    unfold keptDays
    rw [← flatMap_if ((origDates rows).contains) (paddedDay (dfOut rows)),
      List.flatMap_map]
  rw [hL4, splitRuns_blocks (dfOut rows) (keptDays rows) (keptDays_pairwise rows),
    List.flatMap_map]

/-! Helper lemmas about the structure of `mkDayRows` output. -/

theorem mkDayRows_length : ∀ (g : List (Nat × Option ℚ)) (acc : ℚ),
    (mkDayRows acc g).length = g.length := by
  intro g
  induction g with
  | nil => intro acc; rfl
  | cons q rest ih =>
    intro acc
    obtain ⟨t, v⟩ := q
    cases v with
    | none => simp only [mkDayRows, List.length_cons, ih]
    | some x => simp only [mkDayRows, List.length_cons, ih]

theorem eSum_nil : eSum [] = 0 := rfl

theorem eSum_cons_none (t : Nat) (g : List (Nat × Option ℚ)) :
    eSum ((t, none) :: g) = eSum g := by
  simp [eSum, eOf]

theorem eSum_cons_some (t : Nat) (x : ℚ) (g : List (Nat × Option ℚ)) :
    eSum ((t, some x) :: g) = |x| / 6000 + eSum g := by
  simp [eSum, eOf]

theorem mkDayRows_local : ∀ (g : List (Nat × Option ℚ)) (acc : ℚ) (i : Nat) (r : OutRow),
    (mkDayRows acc g)[i]? = some r →
    ∃ q, g[i]? = some q ∧
      r = ⟨q.1, dayOf q.1, q.1 % 86400, q.2, q.2.map (fun v => |v| / 1000),
        q.2.map (fun v => |v| / 6000), q.2.map (fun _ => acc + eSum (g.take (i + 1)))⟩ := by
  intro g
  induction g with
  | nil => intro acc i r hr; simp [mkDayRows] at hr
  | cons q0 rest ih =>
    intro acc i r hr
    obtain ⟨t, v⟩ := q0
    cases v with
    | none =>
      rw [show mkDayRows acc ((t, none) :: rest) =
        (⟨t, dayOf t, t % 86400, none, none, none, none⟩ : OutRow) ::
          mkDayRows acc rest from rfl] at hr
      cases i with
      | zero =>
        rw [List.getElem?_cons_zero] at hr
        have hr2 := Option.some.inj hr
        subst hr2
        exact ⟨(t, none), List.getElem?_cons_zero, rfl⟩
      | succ i2 =>
        rw [List.getElem?_cons_succ] at hr
        obtain ⟨q, hq, hreq⟩ := ih acc i2 r hr
        refine ⟨q, by rw [List.getElem?_cons_succ]; exact hq, ?_⟩
        rw [hreq, List.take_succ_cons, eSum_cons_none]
    | some x =>
      rw [show mkDayRows acc ((t, some x) :: rest) =
        (⟨t, dayOf t, t % 86400, some x, some (|x| / 1000), some (|x| / 6000),
          some (acc + |x| / 6000)⟩ : OutRow) ::
          mkDayRows (acc + |x| / 6000) rest from rfl] at hr
      cases i with
      | zero =>
        rw [List.getElem?_cons_zero] at hr
        have hr2 := Option.some.inj hr
        subst hr2
        refine ⟨(t, some x), List.getElem?_cons_zero, ?_⟩
        simp [List.take_succ_cons, eSum_cons_some, eSum_nil]
      | succ i2 =>
        rw [List.getElem?_cons_succ] at hr
        obtain ⟨q, hq, hreq⟩ := ih (acc + |x| / 6000) i2 r hr
        refine ⟨q, by rw [List.getElem?_cons_succ]; exact hq, ?_⟩
        rw [hreq, List.take_succ_cons, eSum_cons_some]
        simp [add_assoc]

theorem mem_mkDayRows {g : List (Nat × Option ℚ)} {acc : ℚ} {r : OutRow}
    (hr : r ∈ mkDayRows acc g) :
    ∃ q ∈ g, r.rounded = q.1 ∧ r.date = dayOf q.1 ∧ r.time = q.1 % 86400 ∧
      r.psumW = q.2 ∧ r.kW = q.2.map (fun v => |v| / 1000) ∧
      r.energy = q.2.map (fun v => |v| / 6000) := by
  rw [List.mem_iff_getElem?] at hr
  obtain ⟨i, hi⟩ := hr
  obtain ⟨q, hq, rfl⟩ := mkDayRows_local g acc i r hi
  have hqm : q ∈ g := by
    obtain ⟨hlen, hget⟩ := List.getElem?_eq_some_iff.mp hq
    rw [← hget]
    exact List.getElem_mem hlen
  exact ⟨q, hqm, rfl, rfl, rfl, rfl, rfl, rfl⟩

theorem mkDayRows_mem_of : ∀ (g : List (Nat × Option ℚ)) (acc : ℚ) (q : Nat × Option ℚ),
    q ∈ g → ∃ r ∈ mkDayRows acc g,
      r.rounded = q.1 ∧ r.date = dayOf q.1 ∧ r.time = q.1 % 86400 ∧ r.psumW = q.2 := by
  intro g acc q hq
  rw [List.mem_iff_getElem?] at hq
  obtain ⟨i, hi⟩ := hq
  have hilt : i < g.length := (List.getElem?_eq_some_iff.mp hi).1
  have hlen : i < (mkDayRows acc g).length := by
    rw [mkDayRows_length]
    exact hilt
  have hsome : (mkDayRows acc g)[i]? = some ((mkDayRows acc g).get ⟨i, hlen⟩) := by
    rw [List.getElem?_eq_some_iff]
    exact ⟨hlen, rfl⟩
  obtain ⟨q2, hq2, hstruct⟩ := mkDayRows_local g acc i _ hsome
  rw [hi] at hq2
  have hq3 := Option.some.inj hq2
  subst hq3
  refine ⟨_, List.get_mem _ i hlen, ?_⟩
  rw [hstruct]
  exact ⟨rfl, rfl, rfl, rfl⟩

theorem mkDayRows_take : ∀ (g : List (Nat × Option ℚ)) (acc : ℚ) (m : Nat),
    (mkDayRows acc g).take m = mkDayRows acc (g.take m) := by
  intro g
  induction g with
  | nil => intro acc m; simp [mkDayRows]
  | cons q rest ih =>
    intro acc m
    obtain ⟨t, v⟩ := q
    cases m with
    | zero => rfl
    | succ m2 =>
      cases v with
      | none =>
        rw [List.take_succ_cons, show mkDayRows acc ((t, none) :: rest) =
          (⟨t, dayOf t, t % 86400, none, none, none, none⟩ : OutRow) ::
            mkDayRows acc rest from rfl, List.take_succ_cons, ih]
        rfl
      | some x =>
        rw [List.take_succ_cons, show mkDayRows acc ((t, some x) :: rest) =
          (⟨t, dayOf t, t % 86400, some x, some (|x| / 1000), some (|x| / 6000),
            some (acc + |x| / 6000)⟩ : OutRow) ::
            mkDayRows (acc + |x| / 6000) rest from rfl, List.take_succ_cons, ih]
        rfl

theorem mkDayRows_filterMap_energy : ∀ (g : List (Nat × Option ℚ)) (acc : ℚ),
    (mkDayRows acc g).filterMap OutRow.energy = g.filterMap eOf := by
  intro g
  induction g with
  | nil => intro acc; rfl
  | cons q rest ih =>
    intro acc
    obtain ⟨t, v⟩ := q
    cases v with
    | none =>
      show List.filterMap OutRow.energy
        ((⟨t, dayOf t, t % 86400, none, none, none, none⟩ : OutRow) ::
          mkDayRows acc rest) = _
      rw [List.filterMap_cons, List.filterMap_cons]
      exact ih acc
    | some x =>
      show List.filterMap OutRow.energy
        ((⟨t, dayOf t, t % 86400, some x, some (|x| / 1000), some (|x| / 6000),
          some (acc + |x| / 6000)⟩ : OutRow) ::
          mkDayRows (acc + |x| / 6000) rest) = _
      rw [List.filterMap_cons, List.filterMap_cons]
      show (|x| / 6000) :: List.filterMap OutRow.energy
        (mkDayRows (acc + |x| / 6000) rest) = (|x| / 6000) :: rest.filterMap eOf
      rw [ih]

theorem mkDayRows_times : ∀ (g : List (Nat × Option ℚ)) (acc : ℚ),
    (mkDayRows acc g).map OutRow.time = g.map fun q => q.1 % 86400 := by
  intro g
  induction g with
  | nil => intro acc; rfl
  | cons q rest ih =>
    intro acc
    obtain ⟨t, v⟩ := q
    cases v with
    | none => simp only [mkDayRows, List.map_cons, ih]
    | some x => simp only [mkDayRows, List.map_cons, ih]

theorem mkDayRows_block_date (D : List (Nat × ℚ)) (e : Nat) (acc : ℚ) :
    ∀ r ∈ mkDayRows acc (paddedDay D e), r.date = e := by
  intro r hr
  obtain ⟨q, hq, _, h2, _⟩ := mem_mkDayRows hr
  rw [h2, paddedDay_day D e q hq]

/-! Output-level consequences of the master characterization. -/

theorem process_sheet_cases (rows : List Row) :
    process_sheet rows = [] ∨
      ((dfOut rows).isEmpty = false ∧ ¬maxDTex rows ≤ minDT rows ∧
       process_sheet rows =
        (keptDays rows).flatMap fun d => mkDayRows 0 (paddedDay (dfOut rows) d)) := by
  by_cases h3 : (dfOut rows).isEmpty = false
  · by_cases h4 : maxDTex rows ≤ minDT rows
    · left
      unfold process_sheet
      split
      · rfl
      · split
        · rfl
        · split
          · rfl
          · rfl
    · right
      exact ⟨h3, h4, process_sheet_eq rows h3 h4⟩
  · left
    have h3t : (dfOut rows).isEmpty = true := by
      cases h : (dfOut rows).isEmpty
      · exact absurd h h3
      · rfl
    unfold process_sheet
    split
    · rfl
    · split
      · rfl
      · rfl

theorem mem_process_sheet {rows : List Row} {r : OutRow}
    (hr : r ∈ process_sheet rows) :
    ∃ d ∈ keptDays rows, r ∈ mkDayRows 0 (paddedDay (dfOut rows) d) ∧ r.date = d := by
  rcases process_sheet_cases rows with he | ⟨_, _, heq⟩
  · rw [he] at hr; simp at hr
  · rw [heq] at hr
    rw [List.mem_flatMap] at hr
    obtain ⟨d, hd, hrb⟩ := hr
    exact ⟨d, hd, hrb, mkDayRows_block_date _ d 0 r hrb⟩

theorem paddedDay_lookup (D : List (Nat × ℚ)) (d : Nat) :
    ∀ q ∈ paddedDay D d, q.2 = D.lookup q.1 := by
  intro q hq
  unfold paddedDay at hq
  rw [List.mem_map] at hq
  obtain ⟨t, _, rfl⟩ := hq
  rfl

theorem row_fields {rows : List Row} {r : OutRow} (hr : r ∈ process_sheet rows) :
    r.psumW = (dfOut rows).lookup r.rounded ∧
      r.kW = r.psumW.map (fun v => |v| / 1000) ∧
      r.energy = r.psumW.map (fun v => |v| / 6000) := by
  obtain ⟨d, _, hrb, _⟩ := mem_process_sheet hr
  obtain ⟨q, hq, h1, _, _, h4, h5, h6⟩ := mem_mkDayRows hrb
  have hl := paddedDay_lookup _ d q hq
  refine ⟨?_, ?_, ?_⟩
  · rw [h4, hl, h1]
  · rw [h5, h4]
  · rw [h6, h4]

/-- Claim C5, confirmed: in every output row an absent slot is blank in both
the raw (`PSumW`) and the `kW` column, while a present slot — including one
whose samples summed to exactly zero — carries its signed aggregate `v` and
`|v| / 1000`; on the concrete input with a cancelled slot, slot 12:00 shows
a real zero while slot 12:20 is blank, so a zero reading is distinguishable
from a missing one. -/
theorem c5_absent_blank_zero_kept :
    (∀ (rows : List Row), ∀ r ∈ process_sheet rows,
      (r.psumW = none → r.kW = none) ∧
      ∀ v, r.psumW = some v → r.kW = some (|v| / 1000)) ∧
    (∃ r1 ∈ process_sheet trimCexInput,
      r1.time = 43200 ∧ r1.psumW = some 0 ∧ r1.kW = some 0) ∧
    (∃ r2 ∈ process_sheet trimCexInput,
      r2.time = 44400 ∧ r2.psumW = none ∧ r2.kW = none) := by
  refine ⟨?_, by decide!, by decide!⟩
  intro rows r hr
  obtain ⟨_, h2, _⟩ := row_fields hr
  constructor
  · intro hnone; rw [h2, hnone]; rfl
  · intro v hv; rw [h2, hv]; rfl

theorem c5_witness :
    (OutRow.mk (mkTimestamp 2024 1 1 12 0 0) (dayNumber 2024 1 1) 43200
      (some 0) (some 0) (some 0) (some 0)).kW = some (|(0 : ℚ)| / 1000) :=
  (c5_absent_blank_zero_kept.1 trimCexInput _ (by decide!)).2 0 rfl

/-- Claim C4, confirmed: every present output aggregate is the plain signed
sum of all cleaned samples whose floored instant equals that slot (trimmed
samples are all zero-valued, so they never change a slot sum); on the spec's
example, samples 100 at 12:11:00 and 50 at 12:14:30 yield 150 at 12:10. -/
theorem c4_sum_aggregation :
    (∀ (rows : List Row), ∀ r ∈ process_sheet rows, ∀ v, r.psumW = some v →
      v = slotSum r.rounded (cleanRows rows)) ∧
    (∃ r ∈ process_sheet sumExInput,
      r.rounded = mkTimestamp 2024 1 1 12 10 0 ∧ r.psumW = some 150) := by
  refine ⟨?_, by decide!⟩
  intro rows r hr v hv
  obtain ⟨h1, _, _⟩ := row_fields hr
  rw [hv] at h1
  unfold dfOut at h1
  rw [lookup_groupSum] at h1
  by_cases hk : r.rounded ∈ groupKeys (trimZeros (cleanRows rows))
  · rw [if_pos hk] at h1
    rw [Option.some.inj h1, slotSum_trim]
  · rw [if_neg hk] at h1
    exact absurd h1 (by simp)

theorem c4_witness :
    (150 : ℚ) = slotSum (mkTimestamp 2024 1 1 12 10 0) (cleanRows sumExInput) :=
  c4_sum_aggregation.1 sumExInput
    (OutRow.mk (mkTimestamp 2024 1 1 12 10 0) (dayNumber 2024 1 1) 43800
      (some 150) (some (3 / 20)) (some (1 / 40)) (some (1 / 40)))
    (by decide!) 150 rfl

/-- Claim C3, counterexample: with nonzero readings on 1 Jan and 3 Jan 2024
only, the interior day 2 Jan lies between the first and last day holding a
sample, yet the output holds no row at all for it (line 97 filters the
padded grid back to the originally present dates). -/
theorem c3_counterexample : ¬ gapClaim gapCexInput := by
  intro h
  obtain ⟨r, hr, hd, ht⟩ :=
    h (dayNumber 2024 1 2) 0 (by decide!) (by decide!) (by decide)
  have hnone : ∀ r2 ∈ process_sheet gapCexInput,
      ¬(r2.date = dayNumber 2024 1 2 ∧ r2.time = 0) := by decide!
  exact hnone r hr ⟨hd, by simpa using ht⟩

/-- Claim C3 as amended: only days holding a kept (post-trim) sample appear
in the output, and every day that appears at all appears with each of its
144 slots; an interior day of the spanned range with no samples of its own
is omitted from the output entirely rather than materialized as absent. -/
theorem c3_days_materialized (rows : List Row) :
    (∀ r ∈ process_sheet rows,
      ∃ s ∈ trimZeros (cleanRows rows), dayOf (floor10 s.instant) = r.date) ∧
    (∀ d, (∃ r ∈ process_sheet rows, r.date = d) →
      ∀ k, k < 144 → ∃ r ∈ process_sheet rows, r.date = d ∧ r.time = 600 * k) := by
  constructor
  · intro r hr
    obtain ⟨d, hd, _, hdate⟩ := mem_process_sheet hr
    unfold keptDays at hd
    rw [List.mem_filter] at hd
    have hmem : d ∈ origDates rows := List.elem_iff.mp hd.2
    unfold origDates at hmem
    rw [List.mem_dedup, List.mem_map] at hmem
    obtain ⟨p, hp, hpd⟩ := hmem
    obtain ⟨t, v⟩ := p
    unfold dfOut at hp
    obtain ⟨hk, _⟩ := mem_groupSum.mp hp
    obtain ⟨s, hs, hfs⟩ := mem_groupKeys.mp hk
    refine ⟨s, hs, ?_⟩
    rw [hfs]
    exact hpd.trans hdate.symm
  · intro d hex k hk
    rcases process_sheet_cases rows with he | ⟨_, _, heq⟩
    · rw [he] at hex; simp at hex
    · obtain ⟨r, hr, hdate⟩ := hex
      obtain ⟨e, he2, _, hre⟩ := mem_process_sheet hr
      have hde : e = d := by rw [← hre, hdate]
      subst hde
      have hq : (86400 * e + 600 * k, (dfOut rows).lookup (86400 * e + 600 * k)) ∈
          paddedDay (dfOut rows) e := by
        unfold paddedDay
        exact List.mem_map.mpr ⟨86400 * e + 600 * k,
          List.mem_map.mpr ⟨k, List.mem_range.mpr hk, rfl⟩, rfl⟩
      obtain ⟨r2, hr2b, hprops⟩ := mkDayRows_mem_of (paddedDay (dfOut rows) e) 0 _ hq
      refine ⟨r2, ?_, ?_, ?_⟩
      · rw [heq, List.mem_flatMap]
        exact ⟨e, he2, hr2b⟩
      · rw [hprops.2.1]
        show dayOf (86400 * e + 600 * k) = e
        unfold dayOf
        omega
      · rw [hprops.2.2.1]
        show (86400 * e + 600 * k) % 86400 = 600 * k
        omega

theorem c3_witness : ∃ r ∈ process_sheet gapCexInput,
    r.date = dayNumber 2024 1 1 ∧ r.time = 600 * 0 :=
  (c3_days_materialized gapCexInput).2 (dayNumber 2024 1 1) (by decide!) 0
    (by decide)

/-! Day-block extraction: filtering one day out of the output. -/

theorem flatMap_filter_date (D : List (Nat × ℚ)) :
    ∀ (ds : List Nat), ds.Pairwise (· < ·) → ∀ d ∈ ds,
      ((ds.flatMap fun e => mkDayRows 0 (paddedDay D e)).filter
        fun r => r.date == d) = mkDayRows 0 (paddedDay D d) := by
  intro ds
  induction ds with
  | nil => intro _ d hd; simp at hd
  | cons e ds ih =>
    intro hp d hd
    rw [List.pairwise_cons] at hp
    rw [List.flatMap_cons, List.filter_append]
    rcases List.mem_cons.mp hd with h1 | h1
    · subst h1
      have hblk : ((mkDayRows 0 (paddedDay D d)).filter fun r => r.date == d) =
          mkDayRows 0 (paddedDay D d) := by
        apply List.filter_eq_self.mpr
        intro r hr
        rw [mkDayRows_block_date D d 0 r hr]
        simp
      have hrest : ((ds.flatMap fun e2 => mkDayRows 0 (paddedDay D e2)).filter
          fun r => r.date == d) = [] := by
        apply List.filter_eq_nil_iff.mpr
        intro r hr
        rw [List.mem_flatMap] at hr
        obtain ⟨e2, he2, hre2⟩ := hr
        rw [mkDayRows_block_date D e2 0 r hre2]
        have hlt : d < e2 := hp.1 e2 he2
        simp
        omega
      rw [hblk, hrest, List.append_nil]
    · have hblk : ((mkDayRows 0 (paddedDay D e)).filter fun r => r.date == d) = [] := by
        apply List.filter_eq_nil_iff.mpr
        intro r hr
        rw [mkDayRows_block_date D e 0 r hr]
        have hlt : e < d := hp.1 d h1
        simp
        omega
      rw [hblk, List.nil_append, ih hp.2 d h1]

theorem block_times (D : List (Nat × ℚ)) (d : Nat) (acc : ℚ) :
    (mkDayRows acc (paddedDay D d)).map OutRow.time =
      (List.range 144).map fun k => 600 * k := by
  rw [mkDayRows_times]
  unfold paddedDay
  rw [List.map_map]
  unfold slotTimes
  rw [List.map_map]
  apply List.map_congr_left
  intro k hk
  rw [List.mem_range] at hk
  show (86400 * d + 600 * k) % 86400 = 600 * k
  omega

theorem sortByTime_sorted :
    ∀ l : List OutRow, l.Pairwise (fun a b => a.time ≤ b.time) → sortByTime l = l := by
  intro l
  induction l with
  | nil => intro _; rfl
  | cons x xs ih =>
    intro h
    rw [List.pairwise_cons] at h
    show insertByTime x (sortByTime xs) = x :: xs
    rw [ih h.2]
    cases xs with
    | nil => rfl
    | cons y ys =>
      show insertByTime x (y :: ys) = x :: y :: ys
      unfold insertByTime
      rw [if_pos (h.1 y (by simp))]

theorem block_sorted (D : List (Nat × ℚ)) (d : Nat) :
    (mkDayRows 0 (paddedDay D d)).Pairwise fun a b => a.time ≤ b.time := by
  have h1 : ((mkDayRows 0 (paddedDay D d)).map OutRow.time).Pairwise (· ≤ ·) := by
    rw [block_times]
    rw [List.pairwise_map]
    exact (List.pairwise_lt_range 144).imp (by omega)
  rw [List.pairwise_map] at h1
  exact h1

/-- Claim C6, confirmed: for every day present in the output, the rows the
Excel writer takes for that day (`filter` by date, sorted by the time label)
are exactly 144, with the canonical ascending slot labels `00:00 .. 23:50`
(here: seconds-of-day `600 * k` for `k < 144`), no duplicates and no
gaps. -/
theorem c6_day_block_canonical : ∀ (rows : List Row) (d : Nat),
    (∃ r ∈ process_sheet rows, r.date = d) →
    (dayBlock (process_sheet rows) d).map OutRow.time =
      ((List.range 144).map fun k => 600 * k) ∧
    (dayBlock (process_sheet rows) d).length = 144 := by
  intro rows d hex
  rcases process_sheet_cases rows with he | ⟨_, _, heq⟩
  · rw [he] at hex; simp at hex
  · obtain ⟨r, hr, hdate⟩ := hex
    obtain ⟨e, he2, _, hre⟩ := mem_process_sheet hr
    have hde : e = d := by rw [← hre, hdate]
    subst hde
    have hfilter : ((process_sheet rows).filter fun r2 => r2.date == e) =
        mkDayRows 0 (paddedDay (dfOut rows) e) := by
      rw [heq]
      exact flatMap_filter_date (dfOut rows) (keptDays rows)
        (keptDays_pairwise rows) e he2
    have hblock : dayBlock (process_sheet rows) e =
        mkDayRows 0 (paddedDay (dfOut rows) e) := by
      unfold dayBlock
      rw [hfilter]
      exact sortByTime_sorted _ (block_sorted _ _)
    rw [hblock]
    refine ⟨block_times _ _ _, ?_⟩
    have hlen := congrArg List.length (block_times (dfOut rows) e 0)
    rw [List.length_map, List.length_map, List.length_range] at hlen
    exact hlen

theorem c6_witness :
    (dayBlock (process_sheet gapCexInput) (dayNumber 2024 1 1)).length = 144 :=
  (c6_day_block_canonical gapCexInput (dayNumber 2024 1 1) (by decide!)).2

/-! The cumulative-energy column, row by row. -/

theorem c10aux (D : List (Nat × ℚ)) :
    ∀ (ds : List Nat), ds.Pairwise (· < ·) → ∀ (i : Nat) (r : OutRow),
      (ds.flatMap fun d => mkDayRows 0 (paddedDay D d))[i]? = some r →
      (r.energy = r.psumW.map fun v => |v| / 6000) ∧
      (r.psumW = none → r.cumEnergy = none) ∧
      (∀ v, r.psumW = some v → r.cumEnergy =
        some (((((ds.flatMap fun d => mkDayRows 0 (paddedDay D d)).take (i + 1)).filter
          fun x => x.date == r.date).filterMap OutRow.energy).sum)) := by
  intro ds
  induction ds with
  | nil => intro _ i r hr; simp at hr
  | cons d ds ih =>
    intro hp i r hr
    rw [List.pairwise_cons] at hp
    rw [List.flatMap_cons] at hr ⊢
    by_cases hi : i < (mkDayRows 0 (paddedDay D d)).length
    · rw [List.getElem?_append_left hi] at hr
      obtain ⟨q, hq, hstruct⟩ := mkDayRows_local (paddedDay D d) 0 i r hr
      have hqm : q ∈ paddedDay D d := by
        obtain ⟨hlen, hget⟩ := List.getElem?_eq_some_iff.mp hq
        rw [← hget]
        exact List.getElem_mem hlen
      have hrdate : r.date = d := by
        rw [hstruct]
        exact paddedDay_day D d q hqm
      have htake : ((mkDayRows 0 (paddedDay D d) ++
          ds.flatMap fun e => mkDayRows 0 (paddedDay D e)).take (i + 1)) =
          (mkDayRows 0 (paddedDay D d)).take (i + 1) := by
        rw [List.take_append_eq_append_take,
          Nat.sub_eq_zero_of_le (by omega), List.take_zero, List.append_nil]
      have hfilter : (((mkDayRows 0 (paddedDay D d)).take (i + 1)).filter
          fun x => x.date == r.date) = (mkDayRows 0 (paddedDay D d)).take (i + 1) := by
        apply List.filter_eq_self.mpr
        intro x hx
        have hxb : x ∈ mkDayRows 0 (paddedDay D d) := List.mem_of_mem_take hx
        rw [mkDayRows_block_date D d 0 x hxb, hrdate]
        simp
      subst hstruct
      refine ⟨rfl, ?_, ?_⟩
      · intro hnone
        show Option.map _ q.2 = none
        rw [show q.2 = (none : Option ℚ) from hnone]
        rfl
      · intro v hv
        show Option.map _ q.2 = _
        rw [show q.2 = some v from hv]
        rw [htake, hfilter, mkDayRows_take, mkDayRows_filterMap_energy]
        show some (0 + eSum ((paddedDay D d).take (i + 1))) = some (eSum _)
        rw [zero_add]
    · push_neg at hi
      rw [List.getElem?_append_right hi] at hr
      have hIH := ih hp.2 (i - (mkDayRows 0 (paddedDay D d)).length) r hr
      have hrd : r.date ≠ d := by
        have hrm : r ∈ ds.flatMap fun e => mkDayRows 0 (paddedDay D e) := by
          obtain ⟨hlen, hget⟩ := List.getElem?_eq_some_iff.mp hr
          rw [← hget]
          exact List.getElem_mem hlen
        rw [List.mem_flatMap] at hrm
        obtain ⟨e, he, hre⟩ := hrm
        rw [mkDayRows_block_date D e 0 r hre]
        have hlt : d < e := hp.1 e he
        omega
      refine ⟨hIH.1, hIH.2.1, ?_⟩
      intro v hv
      have htake : ((mkDayRows 0 (paddedDay D d) ++
          ds.flatMap fun e => mkDayRows 0 (paddedDay D e)).take (i + 1)) =
          mkDayRows 0 (paddedDay D d) ++
            (ds.flatMap fun e => mkDayRows 0 (paddedDay D e)).take
              (i + 1 - (mkDayRows 0 (paddedDay D d)).length) := by
        rw [List.take_append_eq_append_take, List.take_of_length_le (by omega)]
      rw [htake, List.filter_append]
      have hblkf : ((mkDayRows 0 (paddedDay D d)).filter
          fun x => x.date == r.date) = [] := by
        apply List.filter_eq_nil_iff.mpr
        intro x hx
        rw [mkDayRows_block_date D d 0 x hx]
        simp
        exact fun he => hrd he.symm
      rw [hblkf, List.nil_append,
        show i + 1 - (mkDayRows 0 (paddedDay D d)).length =
          i - (mkDayRows 0 (paddedDay D d)).length + 1 by omega]
      exact hIH.2.2 v hv

/-- Claim C10, confirmed: every output row carries an Energy column equal to
`|raw| / 6000` where the raw aggregate is present and blank where it is
absent, and a Cumulative Energy column that is blank on absent rows and, on
a present row, equals the running per-day sum of the Energy values of the
present rows up to and including that row. -/
theorem c10_energy_columns : ∀ (rows : List Row) (i : Nat) (r : OutRow),
    (process_sheet rows)[i]? = some r →
    (r.energy = r.psumW.map fun v => |v| / 6000) ∧
    (r.psumW = none → r.cumEnergy = none) ∧
    (∀ v, r.psumW = some v → r.cumEnergy =
      some (((((process_sheet rows).take (i + 1)).filter
        fun x => x.date == r.date).filterMap OutRow.energy).sum)) := by
  intro rows i r hr
  rcases process_sheet_cases rows with he | ⟨_, _, heq⟩
  · rw [he] at hr; simp at hr
  · rw [heq] at hr ⊢
    exact c10aux (dfOut rows) (keptDays rows) (keptDays_pairwise rows) i r hr

theorem c10_witness :
    (OutRow.mk (mkTimestamp 2024 1 1 12 10 0) (dayNumber 2024 1 1) 43800
      (some 150) (some (3 / 20)) (some (1 / 40)) (some (1 / 40))).cumEnergy =
      some (((((process_sheet sumExInput).take 74).filter
        fun x => x.date == dayNumber 2024 1 1).filterMap OutRow.energy).sum) :=
  (c10_energy_columns sumExInput 73
    (OutRow.mk (mkTimestamp 2024 1 1 12 10 0) (dayNumber 2024 1 1) 43800
      (some 150) (some (3 / 20)) (some (1 / 40)) (some (1 / 40)))
    (by decide!)).2.2 150 rfl

theorem c8_witness :
    process_sheet badInput = [] ∧ process_sheet zeroInput = [] ∧
      process_sheet midnightInput = [] :=
  ⟨(c8_degenerate_empty badInput).1 (by decide!),
   (c8_degenerate_empty zeroInput).2.1 (by decide!),
   (c8_degenerate_empty midnightInput).2.2 (by decide!)⟩

end DataConverter
